import Mathlib

/-!
Verification development for the task/section parser and rollover
serialization core of the obsidian-analog-todos repository.

Strings are modelled as `List Char`; a document is split into lines on
the newline character, exactly as `content.split("\n")` does in the
source.  The two regular expressions of `src/utils/tasks.ts`,

  HEADER_PATTERN = /^#{1,6}\s+.+$/
  TASK_PATTERN   = /^(\s*)- \[([^\]])\]\s*(.*)$/

are embedded as executable matchers whose backtracking behaviour (greedy
quantifiers with giveback) follows the JavaScript regex semantics; the
character classes mirror the JavaScript definitions of the whitespace
class and of the dot (which does not match line terminators).
-/

namespace Roll

/-- The JavaScript whitespace character class: the characters matched by
the regex whitespace escape (tab, line feed, vertical tab, form feed,
carriage return, space, no-break space, ogham space mark, the en-quad
through hair-space range, line separator, paragraph separator, narrow
no-break space, medium mathematical space, ideographic space, BOM). -/
def isWs (c : Char) : Bool :=
  c == ' ' || c == '\t' || c == '\n' || c == '\r' || c == '\x0B' || c == '\x0C' ||
  c == ' ' || c == ' ' || (decide (' ' ≤ c) && decide (c ≤ ' ')) ||
  c == ' ' || c == ' ' || c == ' ' || c == ' ' ||
  c == '　' || c == '﻿'

/-- The JavaScript dot: any character except the four line terminators. -/
def isDot (c : Char) : Bool :=
  !(c == '\n' || c == '\r' || c == ' ' || c == ' ')

/-- Matcher for the regex fragment consisting of a dot with the plus
quantifier followed by the end anchor: at least one character, all of
them dot characters. -/
def matchDotPlus (cs : List Char) : Bool :=
  !cs.isEmpty && cs.all isDot

/-- Matcher for the tail of HEADER_PATTERN after the hashes: one or more
whitespace characters followed by one or more dot characters up to the
end of the line (with backtracking inside the whitespace run). -/
def matchWsPlusDotPlus : List Char → Bool
  | [] => false
  | c :: rest => isWs c && (matchDotPlus rest || matchWsPlusDotPlus rest)

/-- The test of HEADER_PATTERN on one line.  The leading-hash quantifier
cannot usefully backtrack: matching fewer than all leading hashes leaves
a hash character where the whitespace class is required, so the pattern
matches exactly when the full run of leading hashes has length 1 to 6
and the remainder matches the whitespace-then-dot tail. -/
def headerTest (l : List Char) : Bool :=
  let n := (l.takeWhile (fun c => c == '#')).length
  decide (1 ≤ n) && decide (n ≤ 6) && matchWsPlusDotPlus (l.dropWhile (fun c => c == '#'))

/-- Matcher for the final fragment of TASK_PATTERN after the closing
bracket: a greedy whitespace star, then the captured dot-star up to the
end of the line.  Returns the capture of the greediest viable split, or
none when no split matches (a line terminator sits to the right). -/
def matchWsStarCapture : List Char → Option (List Char)
  | [] => some []
  | c :: rest =>
    if isWs c then
      match matchWsStarCapture rest with
      | some t => some t
      | none => if (c :: rest).all isDot then some (c :: rest) else none
    else if (c :: rest).all isDot then some (c :: rest) else none

/-- The match of TASK_PATTERN on one line, returning the three captures
(indent, state character, text).  The leading whitespace-star capture is
greedy and cannot backtrack usefully (a shorter capture leaves a
whitespace character where the dash is required), so the indent is the
maximal whitespace run; then the literal dash, space, open bracket, one
non-bracket character, close bracket; then the whitespace-star and the
text capture. -/
def taskLineMatch (l : List Char) : Option (List Char × Char × List Char) :=
  match l.dropWhile isWs with
  | '-' :: ' ' :: '[' :: c :: ']' :: rest =>
    if c == ']' then none
    else
      match matchWsStarCapture rest with
      | some text => some (l.takeWhile isWs, c, text)
      | none => none
  | _ => none

/-- One checklist item, as built by the parser: source line index, state
character, text after the checkbox, leading whitespace, raw line. -/
structure Task where
  line : Nat
  state : Char
  text : List Char
  indent : List Char
  raw : List Char
deriving DecidableEq, Repr

/-- A header group together with the tasks that follow it. -/
structure Section where
  headers : List (List Char)
  tasks : List Task
deriving DecidableEq, Repr

/-- The loop of parseSections over the lines of the document, carrying
the running line index, the current section being built (none before any
header or task has been seen) and the finished sections. -/
def parseLinesAux : List (List Char) → Nat → Option Section → List Section → List Section
  | [], _, cur, acc =>
    match cur with
    | some s => if s.tasks.isEmpty then acc else acc ++ [s]
    | none => acc
  | l :: ls, i, cur, acc =>
    if headerTest l then
      match cur with
      | some s =>
        if s.tasks.isEmpty then
          parseLinesAux ls (i + 1) (some { headers := s.headers ++ [l], tasks := s.tasks }) acc
        else
          parseLinesAux ls (i + 1) (some { headers := [l], tasks := [] }) (acc ++ [s])
      | none => parseLinesAux ls (i + 1) (some { headers := [l], tasks := [] }) acc
    else
      match taskLineMatch l with
      | some (ind, st, txt) =>
        match cur with
        | some s =>
          parseLinesAux ls (i + 1)
            (some { headers := s.headers, tasks := s.tasks ++ [⟨i, st, txt, ind, l⟩] }) acc
        | none =>
          parseLinesAux ls (i + 1) (some { headers := [], tasks := [⟨i, st, txt, ind, l⟩] }) acc
      | none => parseLinesAux ls (i + 1) cur acc

/-- parseSections of utils/tasks.ts: split the content on newlines and
run the section-building loop. -/
def parseSections (content : List Char) : List Section :=
  parseLinesAux (content.splitOn '\n') 0 none []

/-- parseTasks of utils/tasks.ts: the sections' tasks, flattened. -/
def parseTasks (content : List Char) : List Task :=
  (parseSections content).flatMap (fun s => s.tasks)

/-- The state test of filterIncompleteSections and filterIncomplete:
keep the task when its state is the space or the slash character. -/
def isIncomplete (t : Task) : Bool :=
  t.state == ' ' || t.state == '/'

/-- filterIncompleteSections of utils/tasks.ts. -/
def filterIncompleteSections (sections : List Section) : List Section :=
  (sections.map (fun s => { headers := s.headers, tasks := s.tasks.filter isIncomplete })).filter
    (fun s => !s.tasks.isEmpty)

/-- filterIncomplete of utils/tasks.ts. -/
def filterIncomplete (tasks : List Task) : List Task :=
  tasks.filter isIncomplete

/-- taskToMarkdown of utils/tasks.ts: indent, dash, space, bracketed
state, one space, text. -/
def taskToMarkdown (t : Task) : List Char :=
  t.indent ++ '-' :: ' ' :: '[' :: t.state :: ']' :: ' ' :: t.text

/-- sectionToMarkdown of utils/tasks.ts: each header line, then each
task rendered by taskToMarkdown. -/
def sectionToMarkdown (s : Section) : List (List Char) :=
  s.headers ++ s.tasks.map taskToMarkdown

/-- The two page kinds of pages/types.ts. -/
inductive PageType
  | now
  | next
deriving DecidableEq, Repr

/-- The frontmatter block emitted by buildPageTemplate. -/
def frontmatter (startDate : List Char) : List Char :=
  "---\nstarted: ".toList ++ startDate ++ "\n---\n".toList

/-- The default body for a Now page with no rolled sections. -/
def DEFAULT_NOW_TEMPLATE_BODY : List Char :=
  "\n- [ ] new task\n- [/] in-progress task\n\n### Project title\n- [ ] project task\n- [x] completed task\n".toList

/-- The default body for a Next page with no rolled sections. -/
def DEFAULT_NEXT_TEMPLATE_BODY : List Char :=
  "\n- [ ] task coming up soon\n- [ ] another task coming up later\n".toList

/-- formatFlatTasks of now/template.ts: flatten the sections' tasks,
reset indentation to the root level, render each task, and wrap the
joined lines in a leading and a trailing newline. -/
def formatFlatTasks (sections : List Section) : List Char :=
  let tasks := sections.flatMap (fun s => s.tasks)
  let flatTasks := tasks.map (fun t => { t with indent := [] })
  let lines := flatTasks.map taskToMarkdown
  '\n' :: List.intercalate ['\n'] lines ++ ['\n']

/-- The Now-page line accumulation loop of buildPageTemplate: a blank
line is pushed before each section except when the accumulator is still
empty, then the section's markdown lines. -/
def buildNowLines (sections : List Section) : List (List Char) :=
  sections.foldl
    (fun lines s => (if lines.isEmpty then lines else lines ++ [[]]) ++ sectionToMarkdown s) []

/-- buildPageTemplate of now/template.ts. -/
def buildPageTemplate (pageType : PageType) (startDate : List Char)
    (rolledSections : List Section) : List Char :=
  let fm := frontmatter startDate
  if rolledSections.isEmpty then
    fm ++ (match pageType with
      | PageType.now => DEFAULT_NOW_TEMPLATE_BODY
      | PageType.next => DEFAULT_NEXT_TEMPLATE_BODY)
  else if pageType == PageType.next then
    fm ++ formatFlatTasks rolledSections
  else
    fm ++ '\n' :: List.intercalate ['\n'] (buildNowLines rolledSections) ++ ['\n']

/-- A task as produced by the historical per-task parser, carrying the
header the task was associated with (or none). -/
structure LegacyTask where
  line : Nat
  state : Char
  text : List Char
  indent : List Char
  raw : List Char
  header : Option (List Char)
deriving DecidableEq, Repr

/-- The loop of the historical per-task parseTasks kept in the older
tasks.ts revision embedded in utils/dates.ts: it carries the last
header line seen (currentHeader) and a flag recording whether only
blank lines and tasks have occurred since it (headerValid).  A header
line sets both; a line matching the task grammar is emitted with the
tracked header when the flag still holds, null otherwise, and leaves
the state unchanged; a line whose trim is empty (that is, a line of
whitespace characters only) changes nothing; any other content line
clears the flag but keeps the tracked header. -/
def legacyParseTasksAux :
    List (List Char) → Nat → Option (List Char) → Bool → List LegacyTask
  | [], _, _, _ => []
  | l :: ls, i, currentHeader, headerValid =>
    if headerTest l then
      legacyParseTasksAux ls (i + 1) (some l) true
    else
      match taskLineMatch l with
      | some (ind, st, txt) =>
        ⟨i, st, txt, ind, l, if headerValid then currentHeader else none⟩ ::
          legacyParseTasksAux ls (i + 1) currentHeader headerValid
      | none =>
        if l.all isWs then legacyParseTasksAux ls (i + 1) currentHeader headerValid
        else legacyParseTasksAux ls (i + 1) currentHeader false

/-- The historical per-task parseTasks of the older tasks.ts revision
embedded in utils/dates.ts: split the content on newlines and scan with
no header tracked and the validity flag down. -/
def legacyParseTasks (content : List Char) : List LegacyTask :=
  legacyParseTasksAux (content.splitOn '\n') 0 none false

/-- The header-free projection of a legacy task, for comparison with the
section parser's tasks. -/
def LegacyTask.toTask (t : LegacyTask) : Task :=
  ⟨t.line, t.state, t.text, t.indent, t.raw⟩

/-! ### Basic facts about the character classes and the line split -/

theorem isWs_newline : isWs '\n' = true := by decide

theorem isWs_dash : isWs '-' = false := by decide

theorem isWs_hash : isWs '#' = false := by decide

theorem isDot_newline : isDot '\n' = false := by decide

/-- Every piece of a split on the newline character is newline-free. -/
theorem not_mem_splitOn_newline : ∀ (xs : List Char), ∀ l ∈ xs.splitOn '\n', '\n' ∉ l := by
  intro xs
  induction xs with
  | nil =>
    intro l hl
    simp only [List.splitOn, List.splitOnP_nil, List.mem_singleton] at hl
    subst hl
    simp
  | cons c cs ih =>
    intro l hl
    simp only [List.splitOn, List.splitOnP_cons] at hl ih
    by_cases hc : (c == '\n') = true
    · rw [if_pos hc] at hl
      rcases List.mem_cons.1 hl with h | h
      · subst h; simp
      · exact ih l h
    · rw [if_neg hc] at hl
      rcases hhd : List.splitOnP (fun a => a == '\n') cs with _ | ⟨hd, tl⟩
      · exact absurd hhd (List.splitOnP_ne_nil _ cs)
      · rw [hhd] at hl
        simp only [List.modifyHead, List.mem_cons] at hl
        rcases hl with h | h
        · subst h
          intro hmem
          rcases List.mem_cons.1 hmem with h' | h'
          · exact hc (by simp [h'.symm])
          · exact ih hd (by rw [hhd]; exact List.mem_cons_self hd tl) h'
        · exact ih l (by rw [hhd]; exact List.mem_cons_of_mem hd h)

/-! ### Characterization of the greedy whitespace-star capture -/

/-- When the whitespace-trimmed remainder is all dot characters, the
greedy capture returns exactly that trimmed remainder. -/
theorem mwsc_of : ∀ rest : List Char, (rest.dropWhile isWs).all isDot = true →
    matchWsStarCapture rest = some (rest.dropWhile isWs) := by
  intro rest
  induction rest with
  | nil => intro _; rfl
  | cons c r ih =>
    intro h
    by_cases hw : isWs c = true
    · rw [List.dropWhile_cons_of_pos hw] at h ⊢
      simp only [matchWsStarCapture, hw, if_pos, ih h]
    · rw [List.dropWhile_cons_of_neg hw] at h ⊢
      simp only [matchWsStarCapture, hw]
      simp [h]

/-- A successful greedy capture is exactly the whitespace-trimmed
remainder, and it is all dot characters. -/
theorem mwsc_some : ∀ (rest t : List Char), matchWsStarCapture rest = some t →
    t = rest.dropWhile isWs ∧ t.all isDot = true := by
  intro rest
  induction rest with
  | nil =>
    intro t h
    simp only [matchWsStarCapture, Option.some.injEq] at h
    subst h
    exact ⟨rfl, rfl⟩
  | cons c r ih =>
    intro t h
    by_cases hw : isWs c = true
    · rw [List.dropWhile_cons_of_pos hw]
      rcases hr : matchWsStarCapture r with _ | t'
      · exfalso
        simp only [matchWsStarCapture, hw, if_pos, hr] at h
        by_cases hd : ((c :: r).all isDot) = true
        · have hdr : (r.dropWhile isWs).all isDot = true := by
            rw [List.all_eq_true] at hd ⊢
            intro a ha
            exact hd a (List.mem_cons_of_mem c ((List.dropWhile_sublist isWs).subset ha))
          rw [mwsc_of r hdr] at hr
          exact Option.noConfusion hr
        · simp [hd] at h
      · simp only [matchWsStarCapture, hw, if_pos, hr, Option.some.injEq] at h
        subst h
        exact ih t' hr
    · rw [List.dropWhile_cons_of_neg hw]
      simp only [matchWsStarCapture, hw] at h
      by_cases hd : ((c :: r).all isDot) = true
      · simp only [if_pos hd, Option.some.injEq] at h
        simp at h
        subst h
        exact ⟨rfl, hd⟩
      · simp [hd] at h

/-! ### Decomposition of a successful task-line match -/

theorem dropWhile_append_all {p : Char → Bool} {l₁ : List Char} (l₂ : List Char)
    (h : ∀ a ∈ l₁, p a = true) : (l₁ ++ l₂).dropWhile p = l₂.dropWhile p := by
  induction l₁ with
  | nil => rfl
  | cons c cs ih =>
    simp only [List.cons_append, List.dropWhile_cons, h c (List.mem_cons_self c cs)]
    exact ih (fun a ha => h a (List.mem_cons_of_mem c ha))

theorem takeWhile_append_all {p : Char → Bool} {l₁ : List Char} {c : Char} (l₂ : List Char)
    (h : ∀ a ∈ l₁, p a = true) (hc : p c = false) : (l₁ ++ c :: l₂).takeWhile p = l₁ := by
  induction l₁ with
  | nil => simp [List.takeWhile_cons, hc]
  | cons d ds ih =>
    simp only [List.cons_append, List.takeWhile_cons, h d (List.mem_cons_self d ds)]
    simp only [if_pos]
    rw [ih (fun a ha => h a (List.mem_cons_of_mem d ha))]

/-- Evaluation of the task-line match on a line presented in its
grammatical shape: indent, the literal marker, a state character, and
the remainder after the closing bracket. -/
theorem taskLine_parts (ind : List Char) (st : Char) (rest : List Char)
    (hind : ∀ a ∈ ind, isWs a = true) (hst : (st == ']') = false) :
    taskLineMatch (ind ++ '-' :: ' ' :: '[' :: st :: ']' :: rest) =
      match matchWsStarCapture rest with
      | some text => some (ind, st, text)
      | none => none := by
  have hdrop : (ind ++ '-' :: ' ' :: '[' :: st :: ']' :: rest).dropWhile isWs =
      '-' :: ' ' :: '[' :: st :: ']' :: rest := by
    rw [dropWhile_append_all _ hind, List.dropWhile_cons_of_neg (by rw [isWs_dash]; simp)]
  have htake : (ind ++ '-' :: ' ' :: '[' :: st :: ']' :: rest).takeWhile isWs = ind :=
    takeWhile_append_all _ hind isWs_dash
  simp only [taskLineMatch, hdrop, htake, hst]
  simp [hst]

/-- Decomposition of any successful task-line match: the indent is the
maximal whitespace run of the line, the state is not a closing bracket,
and the text is the all-dot whitespace-trimmed remainder after the
closing bracket. -/
theorem taskLineMatch_some_decomp {l ind txt : List Char} {st : Char}
    (h : taskLineMatch l = some (ind, st, txt)) :
    ind = l.takeWhile isWs ∧ (st == ']') = false ∧
      ∃ rest, l.dropWhile isWs = '-' :: ' ' :: '[' :: st :: ']' :: rest ∧
        txt = rest.dropWhile isWs ∧ txt.all isDot = true := by
  unfold taskLineMatch at h
  split at h
  case h_2 => exact Option.noConfusion h
  case h_1 c rest heq =>
    split at h
    · exact Option.noConfusion h
    case isFalse hne =>
      rcases hm : matchWsStarCapture rest with _ | text
      · rw [hm] at h; exact Option.noConfusion h
      · rw [hm] at h
        simp only [Option.some.injEq, Prod.mk.injEq] at h
        obtain ⟨h1, h2, h3⟩ := h
        subst h1; subst h2; subst h3
        obtain ⟨ht1, ht2⟩ := mwsc_some rest _ hm
        exact ⟨rfl, by simpa using hne, rest, heq, ht1, ht2⟩

/-! ### Well-formedness of parsed tasks and sections -/

/-- The shape invariants of a task built by the parser from one
newline-free line. -/
def TaskWF (t : Task) : Prop :=
  (∀ a ∈ t.indent, isWs a = true) ∧ '\n' ∉ t.indent ∧ (t.state == ']') = false ∧
    t.state ≠ '\n' ∧ t.text.all isDot = true ∧ t.text.dropWhile isWs = t.text

instance (t : Task) : Decidable (TaskWF t) := by
  unfold TaskWF
  infer_instance

/-- The shape invariants of a section while it is being built. -/
def SectionPreWF (s : Section) : Prop :=
  (∀ h ∈ s.headers, headerTest h = true ∧ '\n' ∉ h) ∧ ∀ t ∈ s.tasks, TaskWF t

/-- The shape invariants of a section in the parser's output. -/
def SectionWF (s : Section) : Prop :=
  SectionPreWF s ∧ s.tasks ≠ []

instance (s : Section) : Decidable (SectionPreWF s) := by
  unfold SectionPreWF
  infer_instance

instance (s : Section) : Decidable (SectionWF s) := by
  unfold SectionWF
  infer_instance

theorem dropWhile_idem (p : Char → Bool) (l : List Char) :
    (l.dropWhile p).dropWhile p = l.dropWhile p := by
  cases h : l.dropWhile p with
  | nil => rfl
  | cons c cs =>
    have hc : p c = false := by
      have := List.head?_dropWhile_not p l
      rw [h] at this
      simpa using this
    simp [List.dropWhile_cons, hc]

/-- A successful match on a newline-free line yields well-formed task
fields. -/
theorem taskLineMatch_wf {l ind txt : List Char} {st : Char} (hnl : '\n' ∉ l)
    (h : taskLineMatch l = some (ind, st, txt)) (i : Nat) :
    TaskWF ⟨i, st, txt, ind, l⟩ := by
  obtain ⟨hind, hst, rest, hdrop, htxt, hdot⟩ := taskLineMatch_some_decomp h
  have hsplit : l.takeWhile isWs ++ l.dropWhile isWs = l := List.takeWhile_append_dropWhile isWs l
  refine ⟨?_, ?_, hst, ?_, hdot, ?_⟩
  · intro a ha
    rw [hind] at ha
    exact List.mem_takeWhile_imp ha
  · intro hmem
    rw [hind] at hmem
    exact hnl (by rw [← hsplit]; exact List.mem_append_left _ hmem)
  · intro hstnl
    have hst' : st = '\n' := hstnl
    apply hnl
    rw [← hsplit, hdrop, hst']
    simp
  · rw [htxt]
    exact dropWhile_idem isWs rest

/-! ### Lines that are not headers -/

theorem headerTest_eq_false_of_head {c : Char} (cs : List Char) (hc : (c == '#') = false) :
    headerTest (c :: cs) = false := by
  simp [headerTest, List.takeWhile_cons, hc]

theorem ws_not_hash {c : Char} (h : isWs c = true) : (c == '#') = false := by
  cases hc : c == '#'
  · rfl
  · rw [eq_of_beq hc] at h
    exact absurd h (by decide)

/-- A line that matches the task grammar is never recognized as a
header: it starts with whitespace or a dash, never with a hash. -/
theorem not_header_of_taskLineMatch {l ind txt : List Char} {st : Char}
    (h : taskLineMatch l = some (ind, st, txt)) : headerTest l = false := by
  obtain ⟨hind, _, rest, hdrop, _, _⟩ := taskLineMatch_some_decomp h
  have hsplit : l.takeWhile isWs ++ l.dropWhile isWs = l := List.takeWhile_append_dropWhile isWs l
  rcases htw : l.takeWhile isWs with _ | ⟨d, ds⟩
  · have hl : l = '-' :: ' ' :: '[' :: st :: ']' :: rest := by
      have h2 := hsplit
      rw [htw, hdrop] at h2
      simpa using h2.symm
    rw [hl]
    exact headerTest_eq_false_of_head _ (by decide)
  · have hd : isWs d = true := List.mem_takeWhile_imp (by rw [htw]; exact List.mem_cons_self d ds)
    have hl : l = d :: (ds ++ l.dropWhile isWs) := by
      have h2 := hsplit
      rw [htw] at h2
      simpa using h2.symm
    rw [hl]
    exact headerTest_eq_false_of_head _ (ws_not_hash hd)

/-! ### Reparsing a rendered task line -/

theorem render_not_header (t : Task) (hind : ∀ a ∈ t.indent, isWs a = true) :
    headerTest (taskToMarkdown t) = false := by
  unfold taskToMarkdown
  cases hi : t.indent with
  | nil => exact headerTest_eq_false_of_head _ (by decide)
  | cons c cs =>
    have hc : isWs c = true := hind c (by rw [hi]; exact List.mem_cons_self c cs)
    simp only [List.cons_append]
    exact headerTest_eq_false_of_head _ (ws_not_hash hc)

theorem taskLineMatch_render (t : Task) (h : TaskWF t) :
    taskLineMatch (taskToMarkdown t) = some (t.indent, t.state, t.text) := by
  obtain ⟨hind, _, hst, _, hdot, hdw⟩ := h
  have hren : taskToMarkdown t =
      t.indent ++ '-' :: ' ' :: '[' :: t.state :: ']' :: (' ' :: t.text) := rfl
  rw [hren, taskLine_parts _ _ _ hind hst]
  have h2 : matchWsStarCapture t.text = some t.text := by
    have h3 := mwsc_of t.text (by rw [hdw]; exact hdot)
    rw [hdw] at h3
    exact h3
  have hm : matchWsStarCapture (' ' :: t.text) = some t.text := by
    simp only [matchWsStarCapture, show isWs ' ' = true by decide, if_pos, h2]
  rw [hm]

theorem render_no_newline (t : Task) (h : TaskWF t) : '\n' ∉ taskToMarkdown t := by
  obtain ⟨_, hnl, _, hstnl, hdot, _⟩ := h
  unfold taskToMarkdown
  intro hmem
  rcases List.mem_append.1 hmem with h1 | h1
  · exact hnl h1
  · simp only [List.mem_cons] at h1
    rcases h1 with h2 | h2 | h2 | h2 | h2 | h2 | h2
    · exact absurd h2 (by decide)
    · exact absurd h2 (by decide)
    · exact absurd h2 (by decide)
    · exact hstnl h2.symm
    · exact absurd h2 (by decide)
    · exact absurd h2 (by decide)
    · have h3 := List.all_eq_true.1 hdot _ h2
      exact absurd h3 (by decide)

theorem render_ne_nil (t : Task) : taskToMarkdown t ≠ [] := by
  unfold taskToMarkdown
  simp

theorem headerTest_ne_nil {l : List Char} (h : headerTest l = true) : l ≠ [] := by
  intro he
  subst he
  exact absurd h (by decide)

/-! ### Step equations of the section-building loop -/

theorem parseLinesAux_nil_none (i : Nat) (acc : List Section) :
    parseLinesAux [] i none acc = acc := rfl

theorem parseLinesAux_nil_some (i : Nat) (s : Section) (acc : List Section) :
    parseLinesAux [] i (some s) acc = if s.tasks.isEmpty then acc else acc ++ [s] := rfl

theorem parseLinesAux_cons_header_none (l : List Char) (ls : List (List Char)) (i : Nat)
    (acc : List Section) (hh : headerTest l = true) :
    parseLinesAux (l :: ls) i none acc = parseLinesAux ls (i + 1) (some ⟨[l], []⟩) acc := by
  simp only [parseLinesAux, if_pos hh]

theorem parseLinesAux_cons_header_some (l : List Char) (ls : List (List Char)) (i : Nat)
    (s : Section) (acc : List Section) (hh : headerTest l = true) :
    parseLinesAux (l :: ls) i (some s) acc =
      if s.tasks.isEmpty then
        parseLinesAux ls (i + 1) (some ⟨s.headers ++ [l], s.tasks⟩) acc
      else parseLinesAux ls (i + 1) (some ⟨[l], []⟩) (acc ++ [s]) := by
  simp only [parseLinesAux, if_pos hh]

theorem parseLinesAux_cons_task_some (l : List Char) (ls : List (List Char)) (i : Nat)
    (s : Section) (acc : List Section) (ind : List Char) (st : Char) (txt : List Char)
    (hh : headerTest l = false) (hm : taskLineMatch l = some (ind, st, txt)) :
    parseLinesAux (l :: ls) i (some s) acc =
      parseLinesAux ls (i + 1) (some ⟨s.headers, s.tasks ++ [⟨i, st, txt, ind, l⟩]⟩) acc := by
  simp [parseLinesAux, hh, hm]

theorem parseLinesAux_cons_task_none (l : List Char) (ls : List (List Char)) (i : Nat)
    (acc : List Section) (ind : List Char) (st : Char) (txt : List Char)
    (hh : headerTest l = false) (hm : taskLineMatch l = some (ind, st, txt)) :
    parseLinesAux (l :: ls) i none acc =
      parseLinesAux ls (i + 1) (some ⟨[], [⟨i, st, txt, ind, l⟩]⟩) acc := by
  simp [parseLinesAux, hh, hm]

theorem parseLinesAux_cons_skip (l : List Char) (ls : List (List Char)) (i : Nat)
    (cur : Option Section) (acc : List Section) (hh : headerTest l = false)
    (hm : taskLineMatch l = none) :
    parseLinesAux (l :: ls) i cur acc = parseLinesAux ls (i + 1) cur acc := by
  simp [parseLinesAux, hh, hm]

/-! ### The parser's output invariant -/

theorem parseLinesAux_wf :
    ∀ (ls : List (List Char)) (i : Nat) (cur : Option Section) (acc : List Section),
    (∀ l ∈ ls, '\n' ∉ l) → (∀ s ∈ acc, SectionWF s) → (∀ s, cur = some s → SectionPreWF s) →
    ∀ S ∈ parseLinesAux ls i cur acc, SectionWF S := by
  intro ls
  induction ls with
  | nil =>
    intro i cur acc _ hacc hcur S hS
    cases cur with
    | none => exact hacc S hS
    | some s =>
      rw [parseLinesAux_nil_some] at hS
      by_cases he : s.tasks.isEmpty = true
      · rw [if_pos he] at hS
        exact hacc S hS
      · rw [if_neg he] at hS
        rcases List.mem_append.1 hS with h | h
        · exact hacc S h
        · have hSs : S = s := by simpa using h
          subst hSs
          exact ⟨hcur S rfl, by simpa using he⟩
  | cons l ls ih =>
    intro i cur acc hls hacc hcur S hS
    have hlnl : '\n' ∉ l := hls l (List.mem_cons_self l ls)
    have hls' : ∀ l' ∈ ls, '\n' ∉ l' := fun l' h' => hls l' (List.mem_cons_of_mem l h')
    by_cases hh : headerTest l = true
    · have hnewcur : ∀ s, some (⟨[l], []⟩ : Section) = some s → SectionPreWF s := by
        intro s hs
        injection hs with hs
        subst hs
        refine ⟨?_, ?_⟩
        · intro h' hmem
          have hh' : h' = l := by simpa using hmem
          subst hh'
          exact ⟨hh, hlnl⟩
        · intro t ht
          simp at ht
      cases cur with
      | none =>
        rw [parseLinesAux_cons_header_none l ls i acc hh] at hS
        exact ih (i + 1) _ acc hls' hacc hnewcur S hS
      | some s =>
        rw [parseLinesAux_cons_header_some l ls i s acc hh] at hS
        by_cases he : s.tasks.isEmpty = true
        · rw [if_pos he] at hS
          refine ih (i + 1) _ acc hls' hacc ?_ S hS
          intro s' hs'
          injection hs' with hs'
          subst hs'
          obtain ⟨hh1, hh2⟩ := hcur s rfl
          refine ⟨?_, by simpa using hh2⟩
          intro h' hmem
          rcases List.mem_append.1 hmem with h2 | h2
          · exact hh1 h' h2
          · have hh' : h' = l := by simpa using h2
            subst hh'
            exact ⟨hh, hlnl⟩
        · rw [if_neg he] at hS
          refine ih (i + 1) _ (acc ++ [s]) hls' ?_ hnewcur S hS
          intro s' hs'
          rcases List.mem_append.1 hs' with h2 | h2
          · exact hacc s' h2
          · have hs2 : s' = s := by simpa using h2
            subst hs2
            exact ⟨hcur s' rfl, by simpa using he⟩
    · have hhf : headerTest l = false := by simpa using hh
      cases hm : taskLineMatch l with
      | none =>
        rw [parseLinesAux_cons_skip l ls i cur acc hhf hm] at hS
        exact ih (i + 1) cur acc hls' hacc hcur S hS
      | some v =>
        obtain ⟨ind, st, txt⟩ := v
        have hwf : TaskWF ⟨i, st, txt, ind, l⟩ := taskLineMatch_wf hlnl hm i
        cases cur with
        | some s =>
          rw [parseLinesAux_cons_task_some l ls i s acc ind st txt hhf hm] at hS
          refine ih (i + 1) _ acc hls' hacc ?_ S hS
          intro s' hs'
          injection hs' with hs'
          subst hs'
          obtain ⟨hh1, hh2⟩ := hcur s rfl
          refine ⟨hh1, ?_⟩
          intro t ht
          rcases List.mem_append.1 ht with h2 | h2
          · exact hh2 t h2
          · have ht2 : t = ⟨i, st, txt, ind, l⟩ := by simpa using h2
            subst ht2
            exact hwf
        | none =>
          rw [parseLinesAux_cons_task_none l ls i acc ind st txt hhf hm] at hS
          refine ih (i + 1) _ acc hls' hacc ?_ S hS
          intro s' hs'
          injection hs' with hs'
          subst hs'
          refine ⟨by intro h' hmem; simp at hmem, ?_⟩
          intro t ht
          have ht2 : t = ⟨i, st, txt, ind, l⟩ := by simpa using ht
          subst ht2
          exact hwf

/-- Every section in the parser's output satisfies the shape
invariants, its task list in particular being non-empty. -/
theorem mem_parseSections_wf {content : List Char} {S : Section}
    (h : S ∈ parseSections content) : SectionWF S :=
  parseLinesAux_wf (content.splitOn '\n') 0 none [] (not_mem_splitOn_newline content)
    (by intro s hs; exact absurd hs (List.not_mem_nil s))
    (by intro s hs; exact Option.noConfusion hs) S h

/-- On an input with no task line, the loop adds nothing to the
accumulator, whatever headers or other content it sees. -/
theorem parseLinesAux_no_tasks :
    ∀ (ls : List (List Char)) (i : Nat) (cur : Option Section) (acc : List Section),
    (∀ l ∈ ls, taskLineMatch l = none) →
    (cur = none ∨ ∃ s, cur = some s ∧ s.tasks = []) →
    parseLinesAux ls i cur acc = acc := by
  intro ls
  induction ls with
  | nil =>
    intro i cur acc _ hcur
    rcases hcur with h | ⟨s, hs, hts⟩
    · subst h; rfl
    · subst hs
      rw [parseLinesAux_nil_some]
      simp [hts]
  | cons l ls ih =>
    intro i cur acc hls hcur
    have hl : taskLineMatch l = none := hls l (List.mem_cons_self l ls)
    have hls' : ∀ l' ∈ ls, taskLineMatch l' = none := fun l' h' => hls l' (List.mem_cons_of_mem l h')
    by_cases hh : headerTest l = true
    · rcases hcur with h | ⟨s, hs, hts⟩
      · subst h
        rw [parseLinesAux_cons_header_none l ls i acc hh]
        exact ih (i + 1) _ acc hls' (Or.inr ⟨_, rfl, rfl⟩)
      · subst hs
        rw [parseLinesAux_cons_header_some l ls i s acc hh,
          if_pos (by simp [hts] : s.tasks.isEmpty = true)]
        exact ih (i + 1) _ acc hls' (Or.inr ⟨_, rfl, by simpa using hts⟩)
    · rw [parseLinesAux_cons_skip l ls i cur acc (by simpa using hh) hl]
      exact ih (i + 1) cur acc hls' hcur

/-! ### Running the loop over a block of headers, then a block of
rendered tasks -/

theorem parseLinesAux_headers_run :
    ∀ (hs rest : List (List Char)) (i : Nat) (H : List (List Char)) (acc : List Section),
    (∀ h ∈ hs, headerTest h = true) →
    parseLinesAux (hs ++ rest) i (some ⟨H, []⟩) acc =
      parseLinesAux rest (i + hs.length) (some ⟨H ++ hs, []⟩) acc := by
  intro hs
  induction hs with
  | nil =>
    intro rest i H acc _
    simp
  | cons h hs ih =>
    intro rest i H acc hhs
    have hh : headerTest h = true := hhs h (List.mem_cons_self h hs)
    have hhs' : ∀ h' ∈ hs, headerTest h' = true := fun h' h2 => hhs h' (List.mem_cons_of_mem h h2)
    rw [List.cons_append, parseLinesAux_cons_header_some h (hs ++ rest) i ⟨H, []⟩ acc hh]
    simp only [List.isEmpty_nil, if_pos]
    rw [ih rest (i + 1) (H ++ [h]) acc hhs']
    have h1 : i + 1 + hs.length = i + (hs.length + 1) := by omega
    have h2 : (H ++ [h]) ++ hs = H ++ h :: hs := by simp
    rw [h1, h2]
    rfl

/-- Renumbering of a task list as the reparse of its rendering
rebuilds it: line indices become consecutive from the given start, and
the raw line becomes the rendering. -/
def renum : Nat → List Task → List Task
  | _, [] => []
  | i, t :: ts => ⟨i, t.state, t.text, t.indent, taskToMarkdown t⟩ :: renum (i + 1) ts

theorem renum_proj :
    ∀ (i : Nat) (ts : List Task),
    (renum i ts).map (fun t => (t.state, t.text, t.indent)) =
      ts.map (fun t => (t.state, t.text, t.indent)) := by
  intro i ts
  induction ts generalizing i with
  | nil => rfl
  | cons t ts ih => simp [renum, ih]

theorem parseLinesAux_tasks_run :
    ∀ (ts : List Task) (i : Nat) (H : List (List Char)) (T : List Task) (acc : List Section),
    (∀ t ∈ ts, TaskWF t) → (T ≠ [] ∨ ts ≠ []) →
    parseLinesAux (ts.map taskToMarkdown) i (some ⟨H, T⟩) acc = acc ++ [⟨H, T ++ renum i ts⟩] := by
  intro ts
  induction ts with
  | nil =>
    intro i H T acc _ hne
    have hT : T ≠ [] := by
      rcases hne with h | h
      · exact h
      · exact absurd rfl h
    rw [List.map_nil, parseLinesAux_nil_some, if_neg (by simpa [List.isEmpty_iff] using hT)]
    simp [renum]
  | cons t ts ih =>
    intro i H T acc hwf _
    have hwt : TaskWF t := hwf t (List.mem_cons_self t ts)
    have hwf' : ∀ t' ∈ ts, TaskWF t' := fun t' h' => hwf t' (List.mem_cons_of_mem t h')
    have hnh : headerTest (taskToMarkdown t) = false := render_not_header t hwt.1
    have hmatch : taskLineMatch (taskToMarkdown t) = some (t.indent, t.state, t.text) :=
      taskLineMatch_render t hwt
    rw [List.map_cons,
      parseLinesAux_cons_task_some (taskToMarkdown t) (ts.map taskToMarkdown) i ⟨H, T⟩ acc
        t.indent t.state t.text hnh hmatch]
    dsimp only
    have hstep := ih (i + 1) H (T ++ [⟨i, t.state, t.text, t.indent, taskToMarkdown t⟩]) acc hwf'
      (Or.inl (by simp))
    rw [hstep]
    simp [renum]

theorem parseLinesAux_tasks_run_none :
    ∀ (ts : List Task) (i : Nat) (acc : List Section),
    (∀ t ∈ ts, TaskWF t) → ts ≠ [] →
    parseLinesAux (ts.map taskToMarkdown) i none acc = acc ++ [⟨[], renum i ts⟩] := by
  intro ts i acc hwf hne
  cases ts with
  | nil => exact absurd rfl hne
  | cons t ts =>
    have hwt : TaskWF t := hwf t (List.mem_cons_self t ts)
    have hwf' : ∀ t' ∈ ts, TaskWF t' := fun t' h' => hwf t' (List.mem_cons_of_mem t h')
    have hnh : headerTest (taskToMarkdown t) = false := render_not_header t hwt.1
    have hmatch : taskLineMatch (taskToMarkdown t) = some (t.indent, t.state, t.text) :=
      taskLineMatch_render t hwt
    rw [List.map_cons,
      parseLinesAux_cons_task_none (taskToMarkdown t) (ts.map taskToMarkdown) i acc
        t.indent t.state t.text hnh hmatch]
    rw [parseLinesAux_tasks_run ts (i + 1) []
      [⟨i, t.state, t.text, t.indent, taskToMarkdown t⟩] acc hwf' (Or.inl (by simp))]
    simp [renum]

/-! ### Further auxiliary facts for the claim theorems -/

theorem matchWsPlusDotPlus_ne_nil {r : List Char} (h : matchWsPlusDotPlus r = true) : r ≠ [] := by
  intro he
  subst he
  exact absurd h (by decide)

theorem sectionToMarkdown_lines_wf {s : Section} (h : SectionWF s) :
    ∀ l ∈ sectionToMarkdown s, l ≠ [] ∧ '\n' ∉ l := by
  obtain ⟨⟨hheads, htasks⟩, _⟩ := h
  intro l hl
  rcases List.mem_append.1 hl with h2 | h2
  · exact ⟨headerTest_ne_nil (hheads l h2).1, (hheads l h2).2⟩
  · obtain ⟨t, ht, rfl⟩ := List.mem_map.1 h2
    exact ⟨render_ne_nil t, render_no_newline t (htasks t ht)⟩

theorem sectionToMarkdown_ne_nil {s : Section} (h : SectionWF s) : sectionToMarkdown s ≠ [] := by
  obtain ⟨_, hne⟩ := h
  unfold sectionToMarkdown
  intro h2
  rcases List.append_eq_nil.mp h2 with ⟨_, h4⟩
  exact hne (List.map_eq_nil_iff.mp h4)

/-! ### Claim theorems -/

/-- C1.  Round-trip: for every Section produced by parseSections,
parsing the serialization of that one section (each header line
verbatim, then each task rendered by taskToMarkdown, joined by
newlines) yields exactly one Section with the same headers and with
tasks agreeing in state, text and indent. -/
theorem parse_sectionToMarkdown_roundTrip (content : List Char) (S : Section)
    (hS : S ∈ parseSections content) :
    ∃ S', parseSections (List.intercalate ['\n'] (sectionToMarkdown S)) = [S'] ∧
      S'.headers = S.headers ∧
      S'.tasks.map (fun t => (t.state, t.text, t.indent)) =
        S.tasks.map (fun t => (t.state, t.text, t.indent)) := by
  have hwf := mem_parseSections_wf hS
  obtain ⟨⟨hheads, htasks⟩, hne⟩ := hwf
  have hlines_nl : ∀ l ∈ sectionToMarkdown S, '\n' ∉ l :=
    fun l hl => (sectionToMarkdown_lines_wf ⟨⟨hheads, htasks⟩, hne⟩ l hl).2
  have hsplit : (List.intercalate ['\n'] (sectionToMarkdown S)).splitOn '\n' =
      sectionToMarkdown S :=
    List.splitOn_intercalate (sectionToMarkdown S) '\n' hlines_nl
      (sectionToMarkdown_ne_nil ⟨⟨hheads, htasks⟩, hne⟩)
  simp only [parseSections]
  rw [hsplit]
  unfold sectionToMarkdown
  cases hhd : S.headers with
  | nil =>
    rw [List.nil_append, parseLinesAux_tasks_run_none S.tasks 0 [] htasks hne]
    exact ⟨⟨[], renum 0 S.tasks⟩, by simp, rfl, by simpa using renum_proj 0 S.tasks⟩
  | cons h hs =>
    have hh : headerTest h = true :=
      (hheads h (by rw [hhd]; exact List.mem_cons_self h hs)).1
    have hhs : ∀ h' ∈ hs, headerTest h' = true :=
      fun h' h2 => (hheads h' (by rw [hhd]; exact List.mem_cons_of_mem h h2)).1
    rw [List.cons_append, parseLinesAux_cons_header_none h _ 0 [] hh,
      parseLinesAux_headers_run hs (S.tasks.map taskToMarkdown) 1 [h] [] hhs,
      parseLinesAux_tasks_run S.tasks (1 + hs.length) ([h] ++ hs) [] [] htasks (Or.inr hne)]
    refine ⟨⟨[h] ++ hs, [] ++ renum (1 + hs.length) S.tasks⟩, by simp, by simp, ?_⟩
    simpa using renum_proj (1 + hs.length) S.tasks

theorem parse_sectionToMarkdown_roundTrip_witness :
    ∃ S', parseSections (List.intercalate ['\n'] (sectionToMarkdown
        ⟨["### A".toList], [⟨1, ' ', ['a'], [], "- [ ] a".toList⟩,
          ⟨2, 'x', ['b'], [' ', ' '], "  - [x] b".toList⟩]⟩)) = [S'] ∧
      S'.headers = (⟨["### A".toList], [⟨1, ' ', ['a'], [], "- [ ] a".toList⟩,
          ⟨2, 'x', ['b'], [' ', ' '], "  - [x] b".toList⟩]⟩ : Section).headers ∧
      S'.tasks.map (fun t => (t.state, t.text, t.indent)) =
        (⟨["### A".toList], [⟨1, ' ', ['a'], [], "- [ ] a".toList⟩,
          ⟨2, 'x', ['b'], [' ', ' '], "  - [x] b".toList⟩]⟩ : Section).tasks.map
          (fun t => (t.state, t.text, t.indent)) :=
  parse_sectionToMarkdown_roundTrip ("### A\n- [ ] a\n  - [x] b".toList)
    ⟨["### A".toList], [⟨1, ' ', ['a'], [], "- [ ] a".toList⟩,
      ⟨2, 'x', ['b'], [' ', ' '], "  - [x] b".toList⟩]⟩ (by decide)

/-- C2 counterexample.  On the line with two spaces after the checkbox
the parser consumes both spaces: the extracted text is bare, not
one-space-headed as the claim predicts. -/
theorem taskText_twoSpaces_counterexample :
    taskLineMatch ("- [ ]  two".toList) = some ([], ' ', "two".toList) ∧
      taskLineMatch ("- [ ]  two".toList) ≠ some ([], ' ', ' ' :: "two".toList) :=
  ⟨by decide, by decide⟩

/-- C2 as amended.  The greedy whitespace star after the closing
bracket consumes every leading whitespace character (not just one
space): the extracted text is the remainder after the bracket with all
leading whitespace dropped, verbatim otherwise. -/
theorem taskText_allLeadingWs_consumed (ind : List Char) (st : Char) (rest : List Char)
    (hind : ∀ a ∈ ind, isWs a = true) (hst : (st == ']') = false)
    (hdot : (rest.dropWhile isWs).all isDot = true) :
    taskLineMatch (ind ++ '-' :: ' ' :: '[' :: st :: ']' :: rest) =
      some (ind, st, rest.dropWhile isWs) := by
  rw [taskLine_parts ind st rest hind hst, mwsc_of rest hdot]

theorem taskText_allLeadingWs_consumed_witness :
    taskLineMatch ([] ++ '-' :: ' ' :: '[' :: '/' :: ']' :: "   x".toList) =
      some ([], '/', ("   x".toList).dropWhile isWs) :=
  taskText_allLeadingWs_consumed [] '/' ("   x".toList) (by decide) (by decide) (by decide)

/-- C3 counterexample.  The line of one hash and two spaces consists of
hashes followed only by whitespace, yet HEADER_PATTERN accepts it (the
whitespace-plus takes one space and the dot-plus takes the other), and
the parser attaches it as a header. -/
theorem header_whitespaceOnly_counterexample :
    headerTest ("#  ".toList) = true ∧
      (("#  ".toList).dropWhile (fun c => c == '#')).all isWs = true ∧
      parseSections ("#  \n- [ ] a".toList) =
        [⟨["#  ".toList], [⟨1, ' ', ['a'], [], "- [ ] a".toList⟩]⟩] :=
  ⟨by decide, by decide, by decide⟩

/-- C3 as amended.  For a line free of line terminators, the header
pattern accepts exactly the lines that start at column 0 with one to
six hashes followed by a whitespace character and at least one further
character of any kind; in particular indentation before the hashes, or
seven or more hashes, never yields a header, but hashes followed only
by two or more whitespace characters do. -/
theorem headerTest_characterization (l : List Char) (hclean : l.all isDot = true) :
    headerTest l = true ↔
      ∃ (n : Nat) (c : Char) (rest : List Char), 1 ≤ n ∧ n ≤ 6 ∧ isWs c = true ∧ rest ≠ [] ∧
        l = List.replicate n '#' ++ c :: rest := by
  constructor
  · intro h
    simp only [headerTest, Bool.and_eq_true, decide_eq_true_eq] at h
    obtain ⟨⟨h1, h2⟩, h3⟩ := h
    have htw : ∀ a ∈ l.takeWhile (fun c => c == '#'), a = '#' := by
      intro a ha
      have := List.mem_takeWhile_imp ha
      simpa using this
    have hrep : l.takeWhile (fun c => c == '#') =
        List.replicate (l.takeWhile (fun c => c == '#')).length '#' :=
      List.eq_replicate_of_mem htw
    cases hdw : l.dropWhile (fun c => c == '#') with
    | nil => rw [hdw] at h3; exact absurd h3 (by decide)
    | cons c rest =>
      rw [hdw] at h3
      simp only [matchWsPlusDotPlus, Bool.and_eq_true, Bool.or_eq_true] at h3
      obtain ⟨hc, hrest⟩ := h3
      have hrestne : rest ≠ [] := by
        rcases hrest with h4 | h4
        · simp only [matchDotPlus, Bool.and_eq_true] at h4
          intro he
          subst he
          exact absurd h4.1 (by decide)
        · exact matchWsPlusDotPlus_ne_nil h4
      refine ⟨(l.takeWhile (fun c => c == '#')).length, c, rest, h1, h2, hc, hrestne, ?_⟩
      have hl2 : l = l.takeWhile (fun c => c == '#') ++ c :: rest := by
        conv_lhs => rw [← List.takeWhile_append_dropWhile (fun c => c == '#') l]
        rw [hdw]
      exact hl2.trans (congrArg (· ++ c :: rest) hrep)
  · rintro ⟨n, c, rest, h1, h2, hc, hrest, rfl⟩
    have hc' : (c == '#') = false := ws_not_hash hc
    have hrepall : ∀ a ∈ List.replicate n '#', (fun c => c == '#') a = true := by
      intro a ha
      simp [List.eq_of_mem_replicate ha]
    have htake : (List.replicate n '#' ++ c :: rest).takeWhile (fun c => c == '#') =
        List.replicate n '#' := takeWhile_append_all _ hrepall hc'
    have hdrop : (List.replicate n '#' ++ c :: rest).dropWhile (fun c => c == '#') =
        c :: rest := by
      rw [dropWhile_append_all _ hrepall, List.dropWhile_cons_of_neg (by simp [hc'])]
    have hdotrest : rest.all isDot = true := by
      simp only [List.all_append, List.all_cons, Bool.and_eq_true] at hclean
      exact hclean.2.2
    have hmd : matchDotPlus rest = true := by
      simp [matchDotPlus, hdotrest, hrest]
    simp [headerTest, htake, hdrop, h1, h2, matchWsPlusDotPlus, hc, hmd]

theorem headerTest_characterization_witness :
    headerTest ("### Hello".toList) = true :=
  (headerTest_characterization ("### Hello".toList) (by decide)).mpr
    ⟨3, ' ', "Hello".toList, by decide, by decide, by decide, by decide, by decide⟩

/-- C5.  Every section in the parser's output has a non-empty task
list; and a document with no task line anywhere (headers and blank
lines included) parses to the empty section list. -/
theorem parseSections_no_empty_section :
    (∀ (content : List Char) (S : Section), S ∈ parseSections content → S.tasks ≠ []) ∧
      (∀ content : List Char, (∀ l ∈ content.splitOn '\n', taskLineMatch l = none) →
        parseSections content = []) := by
  constructor
  · intro content S hS
    exact (mem_parseSections_wf hS).2
  · intro content h
    unfold parseSections
    exact parseLinesAux_no_tasks _ 0 none [] h (Or.inl rfl)

theorem parseSections_no_empty_section_witness :
    (⟨[], [⟨0, ' ', ['a'], [], "- [ ] a".toList⟩]⟩ : Section).tasks ≠ [] ∧
      parseSections ("### Empty\n\n### Also Empty\n".toList) = [] :=
  ⟨parseSections_no_empty_section.1 ("- [ ] a".toList)
      ⟨[], [⟨0, ' ', ['a'], [], "- [ ] a".toList⟩]⟩ (by decide),
    parseSections_no_empty_section.2 ("### Empty\n\n### Also Empty\n".toList) (by decide)⟩

/-- C6.  A line that is neither a header nor a task is skipped by the
loop without changing its state; a header, a content line and then a
task line parse to the single section of that header and that task. -/
theorem parseSections_content_tolerant :
    (∀ (l : List Char) (ls : List (List Char)) (i : Nat) (cur : Option Section)
      (acc : List Section), l ≠ [] → headerTest l = false → taskLineMatch l = none →
      parseLinesAux (l :: ls) i cur acc = parseLinesAux ls (i + 1) cur acc) ∧
      (∀ (hl cl tl ind : List Char) (st : Char) (txt : List Char),
        headerTest hl = true → '\n' ∉ hl → cl ≠ [] → headerTest cl = false →
        taskLineMatch cl = none → '\n' ∉ cl → taskLineMatch tl = some (ind, st, txt) →
        '\n' ∉ tl →
        parseSections (List.intercalate ['\n'] [hl, cl, tl]) =
          [⟨[hl], [⟨2, st, txt, ind, tl⟩]⟩]) := by
  constructor
  · intro l ls i cur acc _ hh hm
    exact parseLinesAux_cons_skip l ls i cur acc hh hm
  · intro hl cl tl ind st txt hhl hnl1 _ hclh hclm hnl2 htl hnl3
    have hsplit : (List.intercalate ['\n'] [hl, cl, tl]).splitOn '\n' = [hl, cl, tl] := by
      refine List.splitOn_intercalate [hl, cl, tl] '\n' ?_ (by simp)
      intro l' hl'
      rcases List.mem_cons.1 hl' with h | h
      · subst h; exact hnl1
      rcases List.mem_cons.1 h with h2 | h2
      · subst h2; exact hnl2
      · have : l' = tl := by simpa using h2
        subst this
        exact hnl3
    simp only [parseSections]
    rw [hsplit, parseLinesAux_cons_header_none hl [cl, tl] 0 [] hhl,
      parseLinesAux_cons_skip cl [tl] 1 _ [] hclh hclm,
      parseLinesAux_cons_task_some tl [] 2 ⟨[hl], []⟩ [] ind st txt
        (not_header_of_taskLineMatch htl) htl]
    dsimp only
    rw [parseLinesAux_nil_some]
    simp

theorem parseSections_content_tolerant_witness :
    parseLinesAux ["just some notes".toList, "- [ ] a".toList] 0 none [] =
        parseLinesAux ["- [ ] a".toList] 1 none [] ∧
      parseSections
          (List.intercalate ['\n'] ["### H".toList, "some notes".toList, "- [ ] t".toList]) =
        [⟨["### H".toList], [⟨2, ' ', ['t'], [], "- [ ] t".toList⟩]⟩] :=
  ⟨parseSections_content_tolerant.1 ("just some notes".toList) ["- [ ] a".toList] 0 none []
      (by decide) (by decide) (by decide),
    parseSections_content_tolerant.2 ("### H".toList) ("some notes".toList)
      ("- [ ] t".toList) [] ' ' ['t'] (by decide) (by decide) (by decide) (by decide)
      (by decide) (by decide) (by decide) (by decide)⟩

/-! ### Cons equations for the filtering of sections -/

theorem filterIncompleteSections_cons_drop (s : Section) (ss : List Section)
    (h : s.tasks.filter isIncomplete = []) :
    filterIncompleteSections (s :: ss) = filterIncompleteSections ss := by
  simp only [filterIncompleteSections, List.map_cons, List.filter_cons]
  simp [h]

theorem filterIncompleteSections_cons_keep (s : Section) (ss : List Section)
    (h : s.tasks.filter isIncomplete ≠ []) :
    filterIncompleteSections (s :: ss) =
      ⟨s.headers, s.tasks.filter isIncomplete⟩ :: filterIncompleteSections ss := by
  simp only [filterIncompleteSections, List.map_cons, List.filter_cons]
  simp [h]

theorem filter_isIncomplete_idem (l : List Task) :
    (l.filter isIncomplete).filter isIncomplete = l.filter isIncomplete := by
  rw [List.filter_filter]
  simp [Bool.and_self]

/-- C4.  filterIncompleteSections keeps within each section exactly the
tasks whose state is the space or slash character, drops every section
whose filtered task list is empty (its headers with it), keeps the
headers of surviving sections unchanged, and preserves the order of
sections and of tasks, as this filterMap formulation of the claim
states. -/
theorem filterIncompleteSections_spec (sections : List Section) :
    filterIncompleteSections sections =
      sections.filterMap (fun s =>
        if s.tasks.filter (fun t => t.state == ' ' || t.state == '/') = [] then none
        else some ⟨s.headers, s.tasks.filter (fun t => t.state == ' ' || t.state == '/')⟩) := by
  show filterIncompleteSections sections =
    sections.filterMap (fun s =>
      if s.tasks.filter isIncomplete = [] then none
      else some ⟨s.headers, s.tasks.filter isIncomplete⟩)
  induction sections with
  | nil => rfl
  | cons s ss ih =>
    rw [List.filterMap_cons]
    by_cases h : s.tasks.filter isIncomplete = []
    · rw [filterIncompleteSections_cons_drop s ss h, if_pos h]
      exact ih
    · rw [filterIncompleteSections_cons_keep s ss h, if_neg h, ih]

/-- C9.  Filtering incomplete sections is idempotent. -/
theorem filterIncompleteSections_idem (sections : List Section) :
    filterIncompleteSections (filterIncompleteSections sections) =
      filterIncompleteSections sections := by
  induction sections with
  | nil => rfl
  | cons s ss ih =>
    by_cases h : s.tasks.filter isIncomplete = []
    · rw [filterIncompleteSections_cons_drop s ss h, ih]
    · rw [filterIncompleteSections_cons_keep s ss h,
        filterIncompleteSections_cons_keep ⟨s.headers, s.tasks.filter isIncomplete⟩
          (filterIncompleteSections ss)
          (by dsimp only; rw [filter_isIncomplete_idem]; exact h)]
      dsimp only
      rw [filter_isIncomplete_idem, ih]

/-- C7.  With the next page kind and a non-empty section list, the
template flattens: the frontmatter, a blank line, then all tasks of all
sections in order, each rendered with an empty indent, joined by single
newlines with one trailing newline; each emitted task line is non-blank
and is not a header line. -/
theorem buildPageTemplate_next_flat (startDate : List Char) (sections : List Section)
    (hne : sections ≠ []) :
    (buildPageTemplate PageType.next startDate sections =
      frontmatter startDate ++ '\n' ::
        (List.intercalate ['\n'] ((sections.flatMap (fun s => s.tasks)).map
          (fun t => '-' :: ' ' :: '[' :: t.state :: ']' :: ' ' :: t.text)) ++ ['\n'])) ∧
      ∀ t ∈ sections.flatMap (fun s => s.tasks),
        headerTest ('-' :: ' ' :: '[' :: t.state :: ']' :: ' ' :: t.text) = false ∧
          ('-' :: ' ' :: '[' :: t.state :: ']' :: ' ' :: t.text) ≠ [] := by
  constructor
  · simp only [buildPageTemplate]
    rw [if_neg (by simpa [List.isEmpty_iff] using hne), if_pos (by decide)]
    unfold formatFlatTasks
    simp only [List.map_map]
    have hfun : (taskToMarkdown ∘ fun t : Task => { t with indent := ([] : List Char) }) =
        (fun t : Task => '-' :: ' ' :: '[' :: t.state :: ']' :: ' ' :: t.text) := by
      funext t
      rfl
    rw [hfun]
    simp
  · intro t _
    exact ⟨headerTest_eq_false_of_head _ (by decide), by simp⟩

theorem buildPageTemplate_next_flat_witness :
    buildPageTemplate PageType.next ("2024-12-18".toList)
        [⟨["### A".toList], [⟨0, ' ', ['a'], [' ', ' '], []⟩]⟩] =
      frontmatter ("2024-12-18".toList) ++ '\n' ::
        (List.intercalate ['\n']
          ((([⟨["### A".toList], [⟨0, ' ', ['a'], [' ', ' '], []⟩]⟩] : List Section).flatMap
            (fun s => s.tasks)).map
            (fun t => '-' :: ' ' :: '[' :: t.state :: ']' :: ' ' :: t.text)) ++ ['\n']) :=
  (buildPageTemplate_next_flat ("2024-12-18".toList)
    [⟨["### A".toList], [⟨0, ' ', ['a'], [' ', ' '], []⟩]⟩] (by decide)).1

/-! ### The historical per-task parser agrees with the section parser
on the extracted tasks -/

/-- The tasks of the current section being built, empty when none. -/
def tasksOf : Option Section → List Task
  | none => []
  | some s => s.tasks

theorem parseLinesAux_flat_legacy :
    ∀ (ls : List (List Char)) (i : Nat) (cur : Option Section) (acc : List Section)
      (hdr : Option (List Char)) (hv : Bool),
    (parseLinesAux ls i cur acc).flatMap (fun s => s.tasks) =
      acc.flatMap (fun s => s.tasks) ++ tasksOf cur ++
        (legacyParseTasksAux ls i hdr hv).map LegacyTask.toTask := by
  intro ls
  induction ls with
  | nil =>
    intro i cur acc hdr hv
    cases cur with
    | none => simp [parseLinesAux_nil_none, legacyParseTasksAux, tasksOf]
    | some s =>
      rw [parseLinesAux_nil_some]
      by_cases he : s.tasks.isEmpty = true
      · rw [if_pos he]
        simp [legacyParseTasksAux, tasksOf, List.isEmpty_iff.mp he]
      · rw [if_neg he]
        simp [legacyParseTasksAux, tasksOf]
  | cons l ls ih =>
    intro i cur acc hdr hv
    by_cases hh : headerTest l = true
    · have hleg : legacyParseTasksAux (l :: ls) i hdr hv =
          legacyParseTasksAux ls (i + 1) (some l) true := by
        simp [legacyParseTasksAux, hh]
      rw [hleg]
      cases cur with
      | none =>
        rw [parseLinesAux_cons_header_none l ls i acc hh, ih (i + 1) _ acc (some l) true]
        simp [tasksOf]
      | some s =>
        rw [parseLinesAux_cons_header_some l ls i s acc hh]
        by_cases he : s.tasks.isEmpty = true
        · rw [if_pos he, ih (i + 1) _ acc (some l) true]
          simp [tasksOf]
        · rw [if_neg he, ih (i + 1) _ (acc ++ [s]) (some l) true]
          simp [tasksOf]
    · have hhf : headerTest l = false := by simpa using hh
      cases hm : taskLineMatch l with
      | some v =>
        obtain ⟨ind, st, txt⟩ := v
        have hleg : legacyParseTasksAux (l :: ls) i hdr hv =
            ⟨i, st, txt, ind, l, if hv then hdr else none⟩ ::
              legacyParseTasksAux ls (i + 1) hdr hv := by
          simp [legacyParseTasksAux, hhf, hm]
        rw [hleg]
        cases cur with
        | some s =>
          rw [parseLinesAux_cons_task_some l ls i s acc ind st txt hhf hm,
            ih (i + 1) _ acc hdr hv]
          simp [tasksOf, LegacyTask.toTask]
        | none =>
          rw [parseLinesAux_cons_task_none l ls i acc ind st txt hhf hm,
            ih (i + 1) _ acc hdr hv]
          simp [tasksOf, LegacyTask.toTask]
      | none =>
        rw [parseLinesAux_cons_skip l ls i cur acc hhf hm]
        by_cases hb : l.all isWs = true
        · have hleg : legacyParseTasksAux (l :: ls) i hdr hv =
              legacyParseTasksAux ls (i + 1) hdr hv := by
            simp [legacyParseTasksAux, hhf, hm, hb]
          rw [hleg, ih (i + 1) cur acc hdr hv]
        · have hleg : legacyParseTasksAux (l :: ls) i hdr hv =
              legacyParseTasksAux ls (i + 1) hdr false := by
            simp [legacyParseTasksAux, hhf, hm, hb]
          rw [hleg, ih (i + 1) cur acc hdr false]

/-- C10.  The historical per-task parser (the older tasks.ts revision
embedded in utils/dates.ts) and the flattening of the current section
parser extract exactly the same task sequence (same line index, state,
text, indent and raw line); the two differ only in header
association. -/
theorem legacy_current_parseTasks_agree (content : List Char) :
    (legacyParseTasks content).map LegacyTask.toTask = parseTasks content := by
  unfold parseTasks parseSections legacyParseTasks
  rw [parseLinesAux_flat_legacy (content.splitOn '\n') 0 none [] none false]
  simp [tasksOf]

/-! ### Joining section blocks for the Now page -/

theorem intercalate_cons_cons (sep x y : List Char) (ys : List (List Char)) :
    List.intercalate sep (x :: y :: ys) = x ++ sep ++ List.intercalate sep (y :: ys) := by
  simp [List.intercalate, List.intersperse]

theorem intercalate_singleton (sep x : List Char) : List.intercalate sep [x] = x := by
  simp [List.intercalate]

theorem buildNowLines_foldl (rest : List Section) :
    ∀ acc : List (List Char), acc ≠ [] →
    rest.foldl
        (fun lines s => (if lines.isEmpty then lines else lines ++ [[]]) ++ sectionToMarkdown s)
        acc =
      acc ++ rest.flatMap (fun s => [] :: sectionToMarkdown s) := by
  induction rest with
  | nil =>
    intro acc _
    simp
  | cons s rest ih =>
    intro acc hacc
    rw [List.foldl_cons]
    have h1 : (if acc.isEmpty then acc else acc ++ [[]]) = acc ++ [[]] := by
      rw [if_neg (by simpa [List.isEmpty_iff] using hacc)]
    rw [h1, ih (acc ++ [[]] ++ sectionToMarkdown s) (by simp)]
    simp

theorem buildNowLines_eq (s : Section) (rest : List Section) (h : sectionToMarkdown s ≠ []) :
    buildNowLines (s :: rest) =
      sectionToMarkdown s ++ rest.flatMap (fun s' => [] :: sectionToMarkdown s') := by
  unfold buildNowLines
  rw [List.foldl_cons]
  have h1 : (if (List.isEmpty ([] : List (List Char))) then ([] : List (List Char))
      else [] ++ [[]]) ++ sectionToMarkdown s = sectionToMarkdown s := by simp
  rw [h1]
  exact buildNowLines_foldl rest (sectionToMarkdown s) h

theorem intercalate_split (L M : List (List Char)) (hL : L ≠ []) (hM : M ≠ []) :
    List.intercalate ['\n'] (L ++ [] :: M) =
      List.intercalate ['\n'] L ++ '\n' :: '\n' :: List.intercalate ['\n'] M := by
  induction L with
  | nil => exact absurd rfl hL
  | cons x L ihL =>
    cases L with
    | nil =>
      cases M with
      | nil => exact absurd rfl hM
      | cons m ms =>
        rw [List.singleton_append, intercalate_cons_cons ['\n'] x [] (m :: ms),
          intercalate_cons_cons ['\n'] [] m ms, intercalate_singleton]
        simp
    | cons x₂ L₂ =>
      rw [List.cons_append, List.cons_append,
        intercalate_cons_cons ['\n'] x x₂ (L₂ ++ [] :: M)]
      have h2 := ihL (by simp)
      rw [List.cons_append] at h2
      rw [h2, intercalate_cons_cons ['\n'] x x₂ L₂]
      simp

theorem intercalate_buildNow (sections : List Section)
    (h : ∀ s ∈ sections, sectionToMarkdown s ≠ []) (hne : sections ≠ []) :
    List.intercalate ['\n'] (buildNowLines sections) =
      List.intercalate ['\n', '\n']
        (sections.map (fun s => List.intercalate ['\n'] (sectionToMarkdown s))) := by
  induction sections with
  | nil => exact absurd rfl hne
  | cons s rest ih =>
    have hs : sectionToMarkdown s ≠ [] := h s (List.mem_cons_self s rest)
    rw [buildNowLines_eq s rest hs]
    cases rest with
    | nil =>
      rw [List.flatMap_nil, List.append_nil, List.map_cons, List.map_nil,
        intercalate_singleton]
    | cons s₂ rest₂ =>
      have hs₂ : sectionToMarkdown s₂ ≠ [] :=
        h s₂ (List.mem_cons_of_mem s (List.mem_cons_self s₂ rest₂))
      have hrest : ∀ s' ∈ s₂ :: rest₂, sectionToMarkdown s' ≠ [] :=
        fun s' h' => h s' (List.mem_cons_of_mem s h')
      have hM : sectionToMarkdown s₂ ++ rest₂.flatMap (fun s' => [] :: sectionToMarkdown s') ≠ [] := by
        intro h2
        exact hs₂ (List.append_eq_nil.mp h2).1
      rw [List.flatMap_cons, List.cons_append]
      rw [intercalate_split (sectionToMarkdown s)
        (sectionToMarkdown s₂ ++ rest₂.flatMap (fun s' => [] :: sectionToMarkdown s')) hs hM]
      rw [← buildNowLines_eq s₂ rest₂ hs₂, ih hrest (by simp)]
      simp only [List.map_cons]
      rw [intercalate_cons_cons ['\n', '\n'] (List.intercalate ['\n'] (sectionToMarkdown s))
        (List.intercalate ['\n'] (sectionToMarkdown s₂))
        ((rest₂.map (fun s => List.intercalate ['\n'] (sectionToMarkdown s))))]
      simp

theorem ends_of_ne_nil_no_nl (l : List Char) (h1 : l ≠ []) (h2 : '\n' ∉ l) :
    ∃ v c, l = v ++ [c] ∧ c ≠ '\n' := by
  refine ⟨l.dropLast, l.getLast h1, (List.dropLast_append_getLast h1).symm, ?_⟩
  intro hc
  exact h2 (hc ▸ List.getLast_mem h1)

theorem intercalate_ends (sep : List Char) (ls : List (List Char)) (hne : ls ≠ [])
    (h : ∀ l ∈ ls, ∃ v c, l = v ++ [c] ∧ c ≠ '\n') :
    ∃ v c, List.intercalate sep ls = v ++ [c] ∧ c ≠ '\n' := by
  induction ls with
  | nil => exact absurd rfl hne
  | cons x ls ih =>
    cases ls with
    | nil =>
      rw [intercalate_singleton]
      exact h x (List.mem_cons_self x [])
    | cons y ys =>
      obtain ⟨v, c, heq, hc⟩ := ih (by simp) (fun l hl => h l (List.mem_cons_of_mem x hl))
      refine ⟨x ++ sep ++ v, c, ?_, hc⟩
      rw [intercalate_cons_cons sep x y ys, heq]
      simp

/-- C8.  With the now page kind and a non-empty list of well-formed
sections, the template emits the frontmatter, a blank line, then each
section's lines joined by newlines with exactly one blank line between
consecutive sections; no line of a section block is blank (so no blank
line sits before the first or after the last section's lines), and the
whole output ends with exactly one trailing newline. -/
theorem buildPageTemplate_now_sections (startDate : List Char) (sections : List Section)
    (hne : sections ≠ []) (hwf : ∀ s ∈ sections, SectionWF s) :
    (buildPageTemplate PageType.now startDate sections =
      frontmatter startDate ++ '\n' ::
        (List.intercalate ['\n', '\n']
          (sections.map (fun s => List.intercalate ['\n'] (sectionToMarkdown s))) ++ ['\n'])) ∧
      (∀ s ∈ sections, ∀ l ∈ sectionToMarkdown s, l ≠ [] ∧ '\n' ∉ l) ∧
      ∃ u c, buildPageTemplate PageType.now startDate sections = u ++ [c, '\n'] ∧ c ≠ '\n' := by
  have hlines : ∀ s ∈ sections, ∀ l ∈ sectionToMarkdown s, l ≠ [] ∧ '\n' ∉ l :=
    fun s hs => sectionToMarkdown_lines_wf (hwf s hs)
  have hblocks : ∀ s ∈ sections, sectionToMarkdown s ≠ [] :=
    fun s hs => sectionToMarkdown_ne_nil (hwf s hs)
  have heq : buildPageTemplate PageType.now startDate sections =
      frontmatter startDate ++ '\n' ::
        (List.intercalate ['\n', '\n']
          (sections.map (fun s => List.intercalate ['\n'] (sectionToMarkdown s))) ++ ['\n']) := by
    simp only [buildPageTemplate]
    rw [if_neg (by simpa [List.isEmpty_iff] using hne), if_neg (by decide),
      intercalate_buildNow sections hblocks hne]
    simp
  refine ⟨heq, hlines, ?_⟩
  have hendsblocks : ∀ b ∈ sections.map (fun s => List.intercalate ['\n'] (sectionToMarkdown s)),
      ∃ v c, b = v ++ [c] ∧ c ≠ '\n' := by
    intro b hb
    obtain ⟨s, hs, rfl⟩ := List.mem_map.1 hb
    refine intercalate_ends ['\n'] (sectionToMarkdown s) (hblocks s hs) ?_
    intro l hl
    exact ends_of_ne_nil_no_nl l (hlines s hs l hl).1 (hlines s hs l hl).2
  obtain ⟨v, c, hB, hc⟩ := intercalate_ends ['\n', '\n']
    (sections.map (fun s => List.intercalate ['\n'] (sectionToMarkdown s)))
    (by simpa using hne) hendsblocks
  refine ⟨frontmatter startDate ++ '\n' :: v, c, ?_, hc⟩
  rw [heq, hB]
  simp

theorem buildPageTemplate_now_sections_witness :
    (buildPageTemplate PageType.now ("2024-12-18".toList)
        [⟨["### A".toList], [⟨0, ' ', ['a'], [], "- [ ] a".toList⟩]⟩,
          ⟨["### B".toList], [⟨1, 'x', ['b'], [], "- [x] b".toList⟩]⟩] =
      frontmatter ("2024-12-18".toList) ++ '\n' ::
        (List.intercalate ['\n', '\n']
          (([⟨["### A".toList], [⟨0, ' ', ['a'], [], "- [ ] a".toList⟩]⟩,
            ⟨["### B".toList], [⟨1, 'x', ['b'], [], "- [x] b".toList⟩]⟩] : List Section).map
            (fun s => List.intercalate ['\n'] (sectionToMarkdown s))) ++ ['\n'])) ∧
      (∀ s ∈ ([⟨["### A".toList], [⟨0, ' ', ['a'], [], "- [ ] a".toList⟩]⟩,
          ⟨["### B".toList], [⟨1, 'x', ['b'], [], "- [x] b".toList⟩]⟩] : List Section),
        ∀ l ∈ sectionToMarkdown s, l ≠ [] ∧ '\n' ∉ l) ∧
      ∃ u c, buildPageTemplate PageType.now ("2024-12-18".toList)
        [⟨["### A".toList], [⟨0, ' ', ['a'], [], "- [ ] a".toList⟩]⟩,
          ⟨["### B".toList], [⟨1, 'x', ['b'], [], "- [x] b".toList⟩]⟩] = u ++ [c, '\n'] ∧
        c ≠ '\n' :=
  buildPageTemplate_now_sections ("2024-12-18".toList)
    [⟨["### A".toList], [⟨0, ' ', ['a'], [], "- [ ] a".toList⟩]⟩,
      ⟨["### B".toList], [⟨1, 'x', ['b'], [], "- [x] b".toList⟩]⟩] (by decide) (by decide)

end Roll

section Scratch

open Roll

example : headerTest "### Hello".toList = true := by decide
example : headerTest "  ### Hello".toList = false := by decide
example : headerTest "####### Seven".toList = false := by decide
example : headerTest "#  ".toList = true := by decide
example : headerTest "#".toList = false := by decide
example : headerTest "# ".toList = false := by decide
example : taskLineMatch "- [ ] a".toList = some ([], ' ', ['a']) := by decide
example : taskLineMatch "  - [x] done".toList = some ([' ', ' '], 'x', "done".toList) := by decide
example : taskLineMatch "- [ ]  two".toList = some ([], ' ', "two".toList) := by decide
example : taskLineMatch "- [ ]".toList = some ([], ' ', []) := by decide
example : taskLineMatch "- regular".toList = none := by decide
example :
    parseSections "### A\n- [ ] a\n### B\n- [ ] b".toList =
      [⟨["### A".toList], [⟨1, ' ', ['a'], [], "- [ ] a".toList⟩]⟩,
        ⟨["### B".toList], [⟨3, ' ', ['b'], [], "- [ ] b".toList⟩]⟩] := by decide
example : parseSections "### Empty\n\n### Also Empty\n".toList = [] := by decide
example :
    parseSections "## Big\n### Sub\n- [ ] task".toList =
      [⟨["## Big".toList, "### Sub".toList], [⟨2, ' ', "task".toList, [], "- [ ] task".toList⟩]⟩] := by
  decide
example :
    parseSections "### P\nnotes here\n- [ ] t".toList =
      [⟨["### P".toList], [⟨2, ' ', ['t'], [], "- [ ] t".toList⟩]⟩] := by decide
example :
    legacyParseTasks "### Project A\nSome notes\n- [ ] task 1".toList =
      [⟨2, ' ', "task 1".toList, [], "- [ ] task 1".toList, none⟩] := by decide
example :
    legacyParseTasks "### Project A\n\n\n- [ ] task 1".toList =
      [⟨3, ' ', "task 1".toList, [], "- [ ] task 1".toList, some ("### Project A".toList)⟩] := by
  decide
example :
    (legacyParseTasks "### A\n- [ ] a\nnote\n- [x] b".toList).map LegacyTask.toTask =
      parseTasks "### A\n- [ ] a\nnote\n- [x] b".toList := by decide
example :
    buildPageTemplate PageType.next "2024-12-18".toList
        [⟨["### A".toList], [⟨0, ' ', ['a'], [' ', ' '], []⟩]⟩] =
      "---\nstarted: 2024-12-18\n---\n\n- [ ] a\n".toList := by decide
example :
    buildPageTemplate PageType.now "2024-12-18".toList
        [⟨["### A".toList], [⟨0, ' ', ['a'], [], []⟩]⟩,
          ⟨["### B".toList], [⟨1, 'x', ['b'], [], []⟩]⟩] =
      "---\nstarted: 2024-12-18\n---\n\n### A\n- [ ] a\n\n### B\n- [x] b\n".toList := by decide

end Scratch
